import Mathlib

/-!
# Verification of the streak and basket-pair computations of the
  Sales-Visualization dashboard (`Category_edit.py`)

The two computations worth formalising are:

* the **consistency-streak** computation (`streaks`, source lines 189–202):
  for every SKU appearing in the merged data, a pivot table gives the total
  `subtotal` per month (missing cells filled with 0); the months are sorted
  most-recent first and the streak counts how many months from the start have
  a strictly positive total, breaking at the first month that does not.

* the **basket-pair** computation (`pair_counts`, source lines 228–241):
  orders are grouped by `order_id`; orders with more than one line item are
  kept; each kept basket's product list is sorted and all 2-combinations are
  fed to a `Counter`; `most_common(20)` returns the pairs sorted by count
  descending, ties in first-encounter order.

The embedding below models a data row as a `SalesRecord` and translates each
pandas / itertools / collections step into an executable Lean definition.
String comparison is python's code-point lexicographic order, realised by the
structurally recursive `lexLt` (proved equivalent to Lean's `String` order).
-/

namespace SalesViz

/-! Section: string ordering.

Python compares strings lexicographically by code point; `lexLt` is that
comparison on the underlying character lists, by structural recursion so the
kernel can evaluate it on concrete inputs. -/

/-- Lexicographic strict comparison of character lists, as python compares
strings. -/
def lexLt : List Char → List Char → Bool
  | [], [] => false
  | [], _ :: _ => true
  | _ :: _, [] => false
  | a :: as, b :: bs => if a = b then lexLt as bs else decide (a < b)

/-- Strict comparison of strings, python's `a < b`. -/
def strLt (a b : String) : Bool := lexLt a.data b.data

/-- Non-strict comparison of strings, python's `a <= b`. -/
def strLe (a b : String) : Bool := !(strLt b a)

theorem lexLt_iff : ∀ as bs : List Char, lexLt as bs = true ↔ as < bs := by
  intro as
  induction as with
  | nil =>
    intro bs
    cases bs with
    | nil => simp [lexLt]
    | cons b bs =>
      simp only [lexLt, true_iff]
      exact List.Lex.nil
  | cons a as ih =>
    intro bs
    cases bs with
    | nil => simp [lexLt]
    | cons b bs =>
      by_cases hab : a = b
      · subst hab
        have e : lexLt (a :: as) (a :: bs) = lexLt as bs := by
          simp [lexLt]
        rw [e, ih]
        constructor
        · intro h; exact List.Lex.cons h
        · intro h
          cases h with
          | cons h => exact h
          | rel h => exact absurd h (lt_irrefl a)
      · simp only [lexLt, if_neg hab, decide_eq_true_eq]
        constructor
        · intro h; exact List.Lex.rel h
        · intro h
          cases h with
          | cons h => exact absurd rfl hab
          | rel h => exact h

/-- The comparison `strLt` is the strict order of `String`'s linear order. -/
theorem strLt_iff (a b : String) : strLt a b = true ↔ a < b := by
  rw [String.lt_iff_toList_lt]
  exact lexLt_iff a.data b.data

/-- The comparison `strLe` is the order of `String`'s linear order. -/
theorem strLe_iff (a b : String) : strLe a b = true ↔ a ≤ b := by
  unfold strLe
  rw [Bool.not_eq_true', Bool.eq_false_iff]
  constructor
  · intro h
    by_contra hle
    exact h ((strLt_iff b a).mpr (not_le.mp hle))
  · intro h hlt
    exact absurd ((strLt_iff b a).mp hlt) (not_lt.mpr h)

instance : IsTotal String (fun a b => strLe a b = true) :=
  ⟨fun a b => by
    rcases le_total a b with h | h
    · exact Or.inl ((strLe_iff a b).mpr h)
    · exact Or.inr ((strLe_iff b a).mpr h)⟩

instance : IsTrans String (fun a b => strLe a b = true) :=
  ⟨fun a b c hab hbc =>
    (strLe_iff a c).mpr (le_trans ((strLe_iff a b).mp hab) ((strLe_iff b c).mp hbc))⟩

instance : IsTotal String (fun a b => strLe b a = true) :=
  ⟨fun a b => by
    rcases le_total b a with h | h
    · exact Or.inl ((strLe_iff b a).mpr h)
    · exact Or.inr ((strLe_iff a b).mpr h)⟩

instance : IsTrans String (fun a b => strLe b a = true) :=
  ⟨fun a b c hab hbc =>
    (strLe_iff c a).mpr (le_trans ((strLe_iff c b).mp hbc) ((strLe_iff b a).mp hab))⟩

/-! Section: data model. -/

/-- One row of the merged fact table: an order line item.
`product_id` is the `selling_sku_id` column, `period` the `order_month`
column and `amount` the `subtotal` column (modelled with exact integers). -/
structure SalesRecord where
  order_id : String
  product_id : String
  period : String
  amount : Int
  deriving DecidableEq, Repr

/-! Section: generic list helpers mirroring pandas/python behaviour. -/

/-- The distinct elements of `l` in order of first occurrence — the key order
of a python `dict` / `collections.Counter` filled by iterating over `l`.
(`List.dedup` keeps the *last* occurrence, hence the double reverse.) -/
def keysInOrder (l : List α) [DecidableEq α] : List α :=
  (l.reverse.dedup).reverse

/-- The number of occurrences of `a` in a list, by structural recursion. -/
def listCount [DecidableEq α] (a : α) : List α → Nat
  | [] => 0
  | b :: bs => listCount a bs + if b = a then 1 else 0

/-- All 2-combinations of a list in the order produced by python's
`itertools.combinations(l, 2)`. -/
def pairsOf : List α → List (α × α)
  | [] => []
  | x :: xs => (xs.map fun y => (x, y)) ++ pairsOf xs

/-! Section: StreakCalculator (source lines 189-202). -/

/-- One cell of `pivot_monthly`: total `subtotal` of product `p` in month
`m`, `fillna(0)` handled by the empty sum being `0`. -/
def periodAmount (records : List SalesRecord) (p m : String) : Int :=
  ((records.filter fun r => r.product_id == p && r.period == m).map
    (fun r => r.amount)).sum

/-- The distinct product ids appearing in `records`, sorted ascending — the
row index of `pivot_monthly` (a pandas pivot table sorts its index). -/
def productIds (records : List SalesRecord) : List String :=
  List.insertionSort (fun a b => strLe a b = true)
    (keysInOrder (records.map fun r => r.product_id))

/-- The inner loop of the streak computation: walk the month list (most
recent first), add 1 while the month's total is strictly positive, `break`
at the first month whose total is not. -/
def currentStreak (records : List SalesRecord) (p : String) :
    List String → Nat
  | [] => 0
  | m :: rest =>
    if 0 < periodAmount records p m then 1 + currentStreak records p rest
    else 0

/-- The `streaks` dict of the source, as an association
list with one entry per product id appearing in `records`.
`allPeriodsDescending` is the caller-supplied `latest_months` list. -/
def computeStreaks (records : List SalesRecord)
    (allPeriodsDescending : List String) : List (String × Nat) :=
  (productIds records).map fun p =>
    (p, currentStreak records p allPeriodsDescending)

/-- The `latest_months` list as the source builds it: the distinct periods of the
dataset sorted descending (most recent first). -/
def latestMonths (records : List SalesRecord) : List String :=
  List.insertionSort (fun a b => strLe b a = true)
    (keysInOrder (records.map fun r => r.period))

/-! Section: BasketPairCounter (source lines 228-241). -/

/-- The distinct order ids of `records` in ascending order — the group keys
of `df.groupby('order_id')` (pandas sorts group keys). -/
def orderIds (records : List SalesRecord) : List String :=
  List.insertionSort (fun a b => strLe a b = true)
    (keysInOrder (records.map fun r => r.order_id))

/-- The basket of order `o`: the product ids of its line items in row
order (`groupby(...)['selling_sku_id'].apply(list)` keeps the original
intra-group row order). -/
def basketOf (records : List SalesRecord) (o : String) : List String :=
  (records.filter fun r => r.order_id == o).map fun r => r.product_id

/-- The `multi_item_orders` index: the order ids whose line-item count exceeds 1,
in ascending order. -/
def multiItemOrders (records : List SalesRecord) : List String :=
  (orderIds records).filter fun o => 1 < (basketOf records o).length

/-- The basket sorted ascending, `sorted(products)`, as python's `sorted`
does before the combinations are enumerated. -/
def sortedBasket (b : List String) : List String :=
  List.insertionSort (fun a b => strLe a b = true) b

/-- Every pair update fed to the `Counter`, in iteration order: baskets in
ascending `order_id` order, each contributing the 2-combinations of its
sorted product list. -/
def allPairs (records : List SalesRecord) : List (String × String) :=
  (multiItemOrders records).flatMap fun o =>
    pairsOf (sortedBasket (basketOf records o))

/-- The `pair_counts` Counter: each distinct pair in first-encounter order,
with the number of times it was produced. -/
def pairCounts (records : List SalesRecord) :
    List ((String × String) × Nat) :=
  (keysInOrder (allPairs records)).map fun p => (p, listCount p (allPairs records))

/-- The behaviour of `Counter.most_common(k)`: the items stable-sorted by count descending
(ties keep first-encounter order), truncated to `k`. -/
def mostCommon (k : Nat) (items : List ((String × String) × Nat)) :
    List ((String × String) × Nat) :=
  (List.insertionSort (fun a b => b.2 ≤ a.2) items).take k

/-- The full basket-pair pipeline, `countPairs`.  The source calls
`most_common(20)`; the spec's contract exposes the bound as `topK`. -/
def countPairs (records : List SalesRecord) (topK : Nat) :
    List ((String × String) × Nat) :=
  mostCommon topK (pairCounts records)

/-- The number of distinct order ids in which both `a` and `b` appear as
line items — the reference quantity of the spec's count guarantee. -/
def numOrdersWithBoth (records : List SalesRecord) (a b : String) : Nat :=
  ((orderIds records).filter fun o =>
    decide (a ∈ basketOf records o) && decide (b ∈ basketOf records o)).length

/-! Section: example data sets.

`exSpec1` and `exSpec2` are the worked examples of the spec (§8); `exDup`
and `exSelf` contain an order with a repeated product line; `exTie` produces
two pairs with equal counts whose first-encounter order differs from their
lexicographic order. -/

def exSpec1 : List SalesRecord :=
  [⟨"o1", "A", "jan", 5⟩, ⟨"o1", "B", "jan", 3⟩, ⟨"o2", "A", "feb", 2⟩]

def exSpec2 : List SalesRecord :=
  [⟨"o1", "X", "jan", 1⟩, ⟨"o1", "Y", "jan", 1⟩, ⟨"o2", "X", "jan", 1⟩,
   ⟨"o2", "Y", "jan", 1⟩, ⟨"o2", "Z", "jan", 1⟩]

def exDup : List SalesRecord :=
  [⟨"o1", "A", "jan", 1⟩, ⟨"o1", "A", "jan", 1⟩, ⟨"o1", "B", "jan", 1⟩]

def exSelf : List SalesRecord :=
  [⟨"o1", "A", "jan", 1⟩, ⟨"o1", "A", "jan", 1⟩]

def exTie : List SalesRecord :=
  [⟨"o1", "B", "jan", 1⟩, ⟨"o1", "C", "jan", 1⟩,
   ⟨"o2", "A", "jan", 1⟩, ⟨"o2", "D", "jan", 1⟩]

/-! Section: generic lemmas on the list helpers. -/

theorem mem_keysInOrder [DecidableEq α] {l : List α} {x : α} :
    x ∈ keysInOrder l ↔ x ∈ l := by
  unfold keysInOrder
  rw [List.mem_reverse, List.mem_dedup, List.mem_reverse]

theorem nodup_keysInOrder [DecidableEq α] (l : List α) :
    (keysInOrder l).Nodup := by
  unfold keysInOrder
  exact (List.nodup_reverse).mpr (List.nodup_dedup _)

theorem pairwise_pairsOf {r : α → α → Prop} :
    ∀ {l : List α}, l.Pairwise r → ∀ x y, (x, y) ∈ pairsOf l → r x y := by
  intro l
  induction l with
  | nil => intro _ x y h; cases h
  | cons a as ih =>
    intro h x y hm
    rw [List.pairwise_cons] at h
    rw [pairsOf, List.mem_append] at hm
    rcases hm with hm | hm
    · rcases List.mem_map.mp hm with ⟨y', hy', he⟩
      cases he
      exact h.1 _ hy'
    · exact ih h.2 x y hm

theorem length_pairsOf : ∀ l : List α, (pairsOf l).length = l.length.choose 2 := by
  intro l
  induction l with
  | nil => rfl
  | cons a as ih =>
    rw [pairsOf, List.length_append, List.length_map, ih]
    have h2 : (as.length + 1).choose 2 = as.length.choose 1 + as.length.choose 2 :=
      Nat.choose_succ_succ as.length 1
    rw [List.length_cons, h2, Nat.choose_one_right, Nat.add_comm]

theorem listCount_append [DecidableEq α] (x : α) :
    ∀ l₁ l₂ : List α, listCount x (l₁ ++ l₂) = listCount x l₁ + listCount x l₂
  | [], l₂ => by simp [listCount]
  | a :: as, l₂ => by
    have ih := listCount_append x as l₂
    simp only [List.cons_append, listCount, List.append_eq, ih]
    omega

theorem listCount_eq_zero_of_not_mem [DecidableEq α] {x : α} :
    ∀ {l : List α}, x ∉ l → listCount x l = 0 := by
  intro l
  induction l with
  | nil => intro _; rfl
  | cons a as ih =>
    intro h
    have h1 : x ∉ as := fun hm => h (List.mem_cons_of_mem a hm)
    have h2 : ¬(a = x) := fun e => h (by rw [← e]; exact List.mem_cons_self a as)
    rw [listCount, ih h1, if_neg h2]

theorem listCount_eq_one_of_mem [DecidableEq α] {x : α} :
    ∀ {l : List α}, l.Nodup → x ∈ l → listCount x l = 1 := by
  intro l
  induction l with
  | nil => intro _ h; cases h
  | cons a as ih =>
    intro hn hm
    rw [List.nodup_cons] at hn
    rw [listCount]
    rcases List.mem_cons.mp hm with he | hm'
    · subst he
      rw [listCount_eq_zero_of_not_mem hn.1, if_pos rfl]
    · have hne : ¬(a = x) := fun e => hn.1 (by rw [e]; exact hm')
      rw [ih hn.2 hm', if_neg hne]

theorem listCount_flatMap_sum [DecidableEq β] (f : α → List β) (x : β) :
    ∀ l : List α, listCount x (l.flatMap f) = (l.map fun a => listCount x (f a)).sum := by
  intro l
  induction l with
  | nil => rfl
  | cons a as ih =>
    rw [List.flatMap_cons, listCount_append, List.map_cons, List.sum_cons, ih]

theorem length_flatMap_sum (f : α → List β) :
    ∀ l : List α, (l.flatMap f).length = (l.map fun a => (f a).length).sum := by
  intro l
  induction l with
  | nil => rfl
  | cons a as ih =>
    rw [List.flatMap_cons, List.length_append, List.map_cons, List.sum_cons, ih]

theorem sum_map_add (f g : α → Nat) :
    ∀ l : List α, (l.map fun x => f x + g x).sum = (l.map f).sum + (l.map g).sum := by
  intro l
  induction l with
  | nil => rfl
  | cons a as ih => simp only [List.map_cons, List.sum_cons, ih]; omega

theorem sum_map_indicator [DecidableEq α] (a : α) :
    ∀ k : List α, (k.map fun x => if x = a then 1 else 0).sum = listCount a k := by
  intro k
  induction k with
  | nil => rfl
  | cons b bs ih =>
    rw [List.map_cons, List.sum_cons, ih, listCount]
    omega

/-- A list's length is the sum, over any duplicate-free cover of its
elements, of the occurrence counts. -/
theorem sum_counts_of_nodup [DecidableEq α] (k : List α) (hk : k.Nodup) :
    ∀ l : List α, (∀ x ∈ l, x ∈ k) → (k.map fun x => listCount x l).sum = l.length := by
  intro l
  induction l with
  | nil => intro _; simp [listCount]
  | cons a as ih =>
    intro hsub
    calc (k.map fun x => listCount x (a :: as)).sum
        = (k.map fun x => listCount x as + if a = x then 1 else 0).sum := rfl
      _ = (k.map fun x => listCount x as).sum + (k.map fun x => if a = x then 1 else 0).sum :=
          sum_map_add _ _ k
      _ = as.length + (k.map fun x => if x = a then 1 else 0).sum := by
          rw [ih fun x hx => hsub x (List.mem_cons_of_mem a hx)]
          have hmapeq : (k.map fun x => if a = x then 1 else 0)
              = (k.map fun x => if x = a then 1 else 0) :=
            List.map_congr_left fun x _ => by
              by_cases h : x = a
              · simp [h]
              · have h' : ¬(a = x) := fun e => h e.symm
                simp [h, h']
          rw [hmapeq]
      _ = as.length + listCount a k := by rw [sum_map_indicator]
      _ = (a :: as).length := by
          rw [listCount_eq_one_of_mem hk (hsub a (List.mem_cons_self a as)),
            List.length_cons]

theorem sum_map_ite_length (p : α → Prop) [DecidablePred p] :
    ∀ l : List α,
      (l.map fun o => if p o then 1 else 0).sum = (l.filter fun o => decide (p o)).length := by
  intro l
  induction l with
  | nil => rfl
  | cons a as ih =>
    by_cases h : p a
    · simp [List.filter_cons, h, ih, Nat.add_comm]
    · simp [List.filter_cons, h, ih]

theorem one_lt_length_of_mem_ne {l : List α} {a b : α}
    (ha : a ∈ l) (hb : b ∈ l) (hne : a ≠ b) : 1 < l.length := by
  cases l with
  | nil => cases ha
  | cons x xs =>
    cases xs with
    | nil =>
      rw [List.mem_singleton] at ha hb
      exact absurd (ha.trans hb.symm) hne
    | cons y ys => simp [List.length_cons]

/-! Section: lemmas about the streak computation. -/

/-- The streak walk counts exactly the initial segment of strictly positive
months. -/
theorem currentStreak_eq_length_takeWhile (records : List SalesRecord)
    (p : String) :
    ∀ l : List String,
      currentStreak records p l
        = (l.takeWhile fun m => decide (0 < periodAmount records p m)).length := by
  intro l
  induction l with
  | nil => rfl
  | cons m rest ih =>
    rw [currentStreak, List.takeWhile_cons]
    by_cases h : 0 < periodAmount records p m
    · simp [h, ih, Nat.add_comm]
    · simp [h]

theorem sum_pos_of_mem : ∀ {l : List Int}, (∀ y ∈ l, 0 ≤ y) →
    ∀ {x : Int}, x ∈ l → 0 < x → 0 < l.sum := by
  intro l
  induction l with
  | nil => intro _ x hx; cases hx
  | cons y ys ih =>
    intro h0 x hx hpos
    rw [List.sum_cons]
    have hys : ∀ z ∈ ys, (0 : Int) ≤ z := fun z hz => h0 z (List.mem_cons_of_mem y hz)
    rcases List.mem_cons.mp hx with he | hm
    · subst he
      exact add_pos_of_pos_of_nonneg hpos (List.sum_nonneg hys)
    · exact add_pos_of_nonneg_of_pos (h0 y (List.mem_cons_self y ys)) (ih hys hm hpos)

/-- A product with a strictly positive line item in month `m` (and no
negative amounts anywhere) has a strictly positive pivot cell there. -/
theorem periodAmount_pos (records : List SalesRecord) (p m : String)
    (hnn : ∀ r ∈ records, 0 ≤ r.amount)
    (r : SalesRecord) (hr : r ∈ records) (hp : r.product_id = p)
    (hm : r.period = m) (hpos : 0 < r.amount) :
    0 < periodAmount records p m := by
  unfold periodAmount
  have hfil : r ∈ records.filter fun s => s.product_id == p && s.period == m := by
    rw [List.mem_filter]
    exact ⟨hr, by simp [hp, hm]⟩
  have hmem : r.amount ∈
      (records.filter fun s => s.product_id == p && s.period == m).map
        fun s => s.amount :=
    List.mem_map.mpr ⟨r, hfil, rfl⟩
  refine sum_pos_of_mem ?_ hmem hpos
  intro y hy
  rcases List.mem_map.mp hy with ⟨s, hs, he⟩
  subst he
  exact hnn s (List.mem_filter.mp hs).1

/-- A product with no line item in month `m` has pivot cell `0` there. -/
theorem periodAmount_eq_zero (records : List SalesRecord) (p m : String)
    (h : ∀ r ∈ records, r.product_id = p → r.period ≠ m) :
    periodAmount records p m = 0 := by
  unfold periodAmount
  have hfil : (records.filter fun s => s.product_id == p && s.period == m) = [] := by
    rw [List.filter_eq_nil_iff]
    intro r hr
    simp only [Bool.and_eq_true, beq_iff_eq, not_and]
    intro hp
    exact h r hr hp
  rw [hfil]
  rfl

theorem mem_productIds {records : List SalesRecord} {p : String} :
    p ∈ productIds records ↔ p ∈ records.map fun r => r.product_id := by
  unfold productIds
  rw [List.mem_insertionSort, mem_keysInOrder]

theorem nodup_productIds (records : List SalesRecord) :
    (productIds records).Nodup := by
  unfold productIds
  exact ((List.perm_insertionSort _ _).nodup_iff).mpr
    (nodup_keysInOrder _)

/-- Membership in the streak table determines the streak value. -/
theorem mem_computeStreaks {records : List SalesRecord} {periods : List String}
    {p : String} {s : Nat} (h : (p, s) ∈ computeStreaks records periods) :
    p ∈ productIds records ∧ s = currentStreak records p periods := by
  unfold computeStreaks at h
  rcases List.mem_map.mp h with ⟨q, hq, he⟩
  have hp : q = p := congrArg Prod.fst he
  subst hp
  exact ⟨hq, (congrArg Prod.snd he).symm⟩

theorem computeStreaks_mem_of_productId {records : List SalesRecord}
    {periods : List String} {p : String} (h : p ∈ productIds records) :
    (p, currentStreak records p periods) ∈ computeStreaks records periods := by
  unfold computeStreaks
  exact List.mem_map.mpr ⟨p, h, rfl⟩

/-! Section: lemmas about the basket-pair computation. -/

theorem mem_orderIds {records : List SalesRecord} {o : String} :
    o ∈ orderIds records ↔ o ∈ records.map fun r => r.order_id := by
  unfold orderIds
  rw [List.mem_insertionSort, mem_keysInOrder]

theorem sortedBasket_perm (l : List String) : (sortedBasket l).Perm l :=
  List.perm_insertionSort _ _

theorem sortedBasket_pairwise_le (l : List String) :
    (sortedBasket l).Pairwise (· ≤ ·) := by
  have h := List.sorted_insertionSort (fun a b => strLe a b = true) l
  exact h.imp fun hab => (strLe_iff _ _).mp hab

theorem mem_sortedBasket {l : List String} {x : String} :
    x ∈ sortedBasket l ↔ x ∈ l :=
  (sortedBasket_perm l).mem_iff

theorem nodup_sortedBasket {l : List String} (h : l.Nodup) :
    (sortedBasket l).Nodup :=
  ((sortedBasket_perm l).nodup_iff).mpr h

theorem count_map_pair (x : String) (a b : String) :
    ∀ xs : List String,
      listCount (a, b) (xs.map fun y => (x, y)) = if a = x then listCount b xs else 0 := by
  intro xs
  induction xs with
  | nil => by_cases h : a = x <;> simp [h, listCount]
  | cons y ys ih =>
    simp only [List.map_cons, listCount, ih]
    by_cases hax : a = x
    · subst hax
      by_cases hby : y = b
      · subst hby; simp
      · have hne : ¬((a, y) = (a, b)) := fun e => hby (congrArg Prod.snd e)
        simp [hby, hne]
    · have hne : ¬((x, y) = (a, b)) := fun e => hax (congrArg Prod.fst e).symm
      simp [hax, hne]

/-- In a sorted duplicate-free basket, every 2-combination is counted exactly
once, and only strictly increasing pairs of members occur. -/
theorem count_pairsOf_sorted :
    ∀ l : List String, l.Pairwise (· ≤ ·) → l.Nodup → ∀ a b : String,
      listCount (a, b) (pairsOf l) = if a ∈ l ∧ b ∈ l ∧ a < b then 1 else 0 := by
  intro l
  induction l with
  | nil => intro _ _ a b; simp [pairsOf, listCount]
  | cons x xs ih =>
    intro hs hn a b
    rw [List.pairwise_cons] at hs
    rw [List.nodup_cons] at hn
    rw [pairsOf, listCount_append, count_map_pair]
    by_cases hax : a = x
    · subst hax
      rw [if_pos rfl]
      have h2 : listCount (a, b) (pairsOf xs) = 0 := by
        rw [ih hs.2 hn.2 a b, if_neg]
        intro hc
        exact hn.1 hc.1
      rw [h2, Nat.add_zero]
      by_cases hbxs : b ∈ xs
      · rw [listCount_eq_one_of_mem hn.2 hbxs]
        have hab : a < b := lt_of_le_of_ne (hs.1 b hbxs) fun e => hn.1 (e ▸ hbxs)
        rw [if_pos ⟨List.mem_cons_self a xs, List.mem_cons_of_mem a hbxs, hab⟩]
      · rw [listCount_eq_zero_of_not_mem hbxs, if_neg]
        rintro ⟨-, hbmem, hab⟩
        rcases List.mem_cons.mp hbmem with he | hm
        · exact absurd (he ▸ hab) (lt_irrefl _)
        · exact hbxs hm
    · rw [if_neg hax, Nat.zero_add, ih hs.2 hn.2 a b]
      by_cases hcond : a ∈ xs ∧ b ∈ xs ∧ a < b
      · rw [if_pos hcond, if_pos ⟨List.mem_cons_of_mem x hcond.1,
          List.mem_cons_of_mem x hcond.2.1, hcond.2.2⟩]
      · rw [if_neg hcond, if_neg]
        rintro ⟨hamem, hbmem, hab⟩
        rcases List.mem_cons.mp hamem with hea | hma
        · exact hax hea
        rcases List.mem_cons.mp hbmem with heb | hmb
        · exact absurd (heb ▸ hab) (not_lt.mpr (hs.1 a hma))
        · exact hcond ⟨hma, hmb, hab⟩

/-- Every pair the Counter ever sees is nondecreasing: each basket is sorted
before its 2-combinations are enumerated. -/
theorem mem_allPairs_le {records : List SalesRecord} {a b : String}
    (h : (a, b) ∈ allPairs records) : a ≤ b := by
  unfold allPairs at h
  rcases List.mem_flatMap.mp h with ⟨o, _, hpair⟩
  exact pairwise_pairsOf (sortedBasket_pairwise_le _) a b hpair

/-- With duplicate-free baskets, every pair the Counter sees is strictly
increasing. -/
theorem mem_allPairs_lt {records : List SalesRecord} {a b : String}
    (hnd : ∀ o ∈ orderIds records, (basketOf records o).Nodup)
    (h : (a, b) ∈ allPairs records) : a < b := by
  unfold allPairs at h
  rcases List.mem_flatMap.mp h with ⟨o, ho, hpair⟩
  have hoid : o ∈ orderIds records := (List.mem_filter.mp ho).1
  have hne : a ≠ b :=
    pairwise_pairsOf (nodup_sortedBasket (hnd o hoid)) a b hpair
  exact lt_of_le_of_ne
    (pairwise_pairsOf (sortedBasket_pairwise_le _) a b hpair) hne

theorem mem_pairCounts {records : List SalesRecord}
    {q : String × String} {c : Nat} (h : (q, c) ∈ pairCounts records) :
    q ∈ allPairs records ∧ c = listCount q (allPairs records) := by
  unfold pairCounts at h
  rcases List.mem_map.mp h with ⟨q', hq', he⟩
  have hq : q' = q := congrArg Prod.fst he
  subst hq
  exact ⟨mem_keysInOrder.mp hq', (congrArg Prod.snd he).symm⟩

theorem mem_countPairs_mem_pairCounts {records : List SalesRecord}
    {topK : Nat} {x : (String × String) × Nat}
    (h : x ∈ countPairs records topK) : x ∈ pairCounts records := by
  unfold countPairs mostCommon at h
  have h1 : x ∈ List.insertionSort (fun a b => b.2 ≤ a.2) (pairCounts records) :=
    (List.take_sublist _ _).mem h
  exact (List.mem_insertionSort _).mp h1

/-- The central counting identity: with duplicate-free baskets, the Counter
value of a strictly increasing pair is the number of distinct orders whose
basket contains both components. -/
theorem count_allPairs_eq (records : List SalesRecord)
    (hnd : ∀ o ∈ orderIds records, (basketOf records o).Nodup)
    {a b : String} (hab : a < b) :
    listCount (a, b) (allPairs records) = numOrdersWithBoth records a b := by
  unfold allPairs
  rw [listCount_flatMap_sum]
  have hper : ∀ o ∈ multiItemOrders records,
      listCount (a, b) (pairsOf (sortedBasket (basketOf records o)))
        = if a ∈ basketOf records o ∧ b ∈ basketOf records o then 1 else 0 := by
    intro o ho
    have hoid : o ∈ orderIds records := (List.mem_filter.mp ho).1
    rw [count_pairsOf_sorted _ (sortedBasket_pairwise_le _)
      (nodup_sortedBasket (hnd o hoid)) a b]
    by_cases hc : a ∈ basketOf records o ∧ b ∈ basketOf records o
    · rw [if_pos ⟨mem_sortedBasket.mpr hc.1, mem_sortedBasket.mpr hc.2, hab⟩,
        if_pos hc]
    · rw [if_neg, if_neg hc]
      rintro ⟨h1, h2, -⟩
      exact hc ⟨mem_sortedBasket.mp h1, mem_sortedBasket.mp h2⟩
  rw [List.map_congr_left hper,
    sum_map_ite_length fun o => a ∈ basketOf records o ∧ b ∈ basketOf records o]
  unfold multiItemOrders numOrdersWithBoth
  rw [List.filter_filter]
  congr 1
  apply List.filter_congr
  intro o _
  by_cases hc : a ∈ basketOf records o ∧ b ∈ basketOf records o
  · have hlen : 1 < (basketOf records o).length :=
      one_lt_length_of_mem_ne hc.1 hc.2 (ne_of_lt hab)
    simp [hc.1, hc.2, hlen]
  · rw [decide_eq_false hc]
    by_cases h1 : a ∈ basketOf records o
    · have h2 : b ∉ basketOf records o := fun h2 => hc ⟨h1, h2⟩
      rw [decide_eq_false h2]
      simp
    · rw [decide_eq_false h1]
      simp

instance : IsTotal ((String × String) × Nat) (fun a b => b.2 ≤ a.2) :=
  ⟨fun a b => le_total b.2 a.2⟩

instance : IsTrans ((String × String) × Nat) (fun a b => b.2 ≤ a.2) :=
  ⟨fun _ _ _ hab hbc => le_trans hbc hab⟩

/-! Section: the claims. -/

/-- Claim C1, counterexample. The claim says countPairs yields no self-pairs
and that each returned count is the number of distinct orders containing
both products.  On `exDup` (one order with line items A, A, B) the code
reports count 2 for (A, B) although only one distinct order contains both,
and also returns the self-pair (A, A). -/
theorem claim_C1_counterexample :
    countPairs exDup 20 = [(("A", "B"), 2), (("A", "A"), 1)]
      ∧ numOrdersWithBoth exDup "A" "B" = 1 :=
  ⟨by decide, by decide⟩

/-- Claim C1, amended. Provided no order lists the same product on more than
one line, every pair returned by countPairs is strictly increasing (so no
repeats and no self-pairs among the enumerated 2-combinations of each sorted
basket) and its reported count equals the number of distinct order ids in
which both products appear as line items. -/
theorem claim_C1 (records : List SalesRecord) (topK : Nat)
    (a b : String) (c : Nat)
    (hnd : ∀ o ∈ orderIds records, (basketOf records o).Nodup)
    (hmem : ((a, b), c) ∈ countPairs records topK) :
    a < b ∧ c = numOrdersWithBoth records a b := by
  have h2 := mem_pairCounts (mem_countPairs_mem_pairCounts hmem)
  have hab : a < b := mem_allPairs_lt hnd h2.1
  exact ⟨hab, h2.2.trans (count_allPairs_eq records hnd hab)⟩

/-- Witness for C1 at the spec's second worked example. -/
theorem claim_C1_witness :
    (("X", "Y"), 2) ∈ countPairs exSpec2 10
      ∧ ("X" < "Y" ∧ 2 = numOrdersWithBoth exSpec2 "X" "Y") :=
  ⟨by decide, claim_C1 exSpec2 10 "X" "Y" 2 (by decide) (by decide)⟩

/-- Claim C2. The streak table has exactly one entry per product id appearing
anywhere in `records`, and each entry's value counts the periods of the
initial segment of `allPeriodsDescending` with strictly positive aggregated
amount, stopping at the first period without one. -/
theorem claim_C2 (records : List SalesRecord) (periods : List String) :
    ((computeStreaks records periods).map Prod.fst).Nodup
      ∧ (∀ p : String, p ∈ (computeStreaks records periods).map Prod.fst ↔
          p ∈ records.map fun r => r.product_id)
      ∧ ∀ p s, (p, s) ∈ computeStreaks records periods →
          s = (periods.takeWhile fun m =>
                decide (0 < periodAmount records p m)).length := by
  have hkeys : (computeStreaks records periods).map Prod.fst
      = productIds records := by
    unfold computeStreaks
    rw [List.map_map]
    show (productIds records).map (fun p => p) = productIds records
    simp
  refine ⟨?_, fun p => ?_, fun p s hmem => ?_⟩
  · rw [hkeys]; exact nodup_productIds records
  · rw [hkeys]; exact mem_productIds
  · rw [(mem_computeStreaks hmem).2, currentStreak_eq_length_takeWhile]

/-- Witness for C2 at the spec's first worked example. -/
theorem claim_C2_witness :
    2 = ((["feb", "jan"]).takeWhile fun m =>
          decide (0 < periodAmount exSpec1 "A" m)).length
      ∧ ("A" ∈ (computeStreaks exSpec1 ["feb", "jan"]).map Prod.fst ↔
          "A" ∈ exSpec1.map fun r => r.product_id) :=
  ⟨(claim_C2 exSpec1 ["feb", "jan"]).2.2 "A" 2 (by decide),
   (claim_C2 exSpec1 ["feb", "jan"]).2.1 "A"⟩

/-- Claim C3, counterexample. Ties are *not* broken lexicographically: on
`exTie` the two pairs both have count 1, yet (B, C) is returned before
(A, D) although (A, D) precedes it lexicographically ("A" < "B"). -/
theorem claim_C3_counterexample :
    countPairs exTie 10 = [(("B", "C"), 1), (("A", "D"), 1)]
      ∧ strLt "A" "B" = true :=
  ⟨by decide, by decide⟩

/-- Claim C3, amended. The returned sequence is sorted by count descending and
its length is min(topK, number of distinct pairs observed); ties keep the
Counter's first-encounter order rather than lexicographic order. -/
theorem claim_C3 (records : List SalesRecord) (topK : Nat) :
    List.Sorted (fun x y => y.2 ≤ x.2) (countPairs records topK)
      ∧ (countPairs records topK).length
          = min topK (keysInOrder (allPairs records)).length := by
  constructor
  · have hs := List.sorted_insertionSort (fun a b => b.2 ≤ a.2) (pairCounts records)
    exact List.Pairwise.sublist (List.take_sublist _ _) hs
  · unfold countPairs mostCommon pairCounts
    rw [List.length_take, List.length_insertionSort, List.length_map]

/-- Claim C4, counterexample. An order with exactly one distinct product but
two line items is retained and contributes a (self-)pair. -/
theorem claim_C4_counterexample :
    countPairs exSelf 20 = [(("A", "A"), 1)] := by decide

/-- Claim C4, amended. Baskets are retained exactly when they have at least 2
line items, and any basket with fewer than 2 line items yields no
2-combinations at all; retention does not look at the number of *distinct*
products, so a 1-distinct-product order with 2 lines still contributes. -/
theorem claim_C4 (records : List SalesRecord) :
    (∀ o : String, o ∈ multiItemOrders records ↔
        o ∈ orderIds records ∧ 2 ≤ (basketOf records o).length)
      ∧ ∀ o : String, (basketOf records o).length < 2 →
          pairsOf (sortedBasket (basketOf records o)) = [] := by
  constructor
  · intro o
    unfold multiItemOrders
    rw [List.mem_filter]
    simp [Nat.lt_iff_add_one_le]
  · intro o hlen
    have hlen' : (sortedBasket (basketOf records o)).length < 2 := by
      rw [(sortedBasket_perm _).length_eq]
      exact hlen
    cases hsb : sortedBasket (basketOf records o) with
    | nil => rfl
    | cons x t =>
      cases t with
      | nil => rfl
      | cons y s =>
        rw [hsb] at hlen'
        simp only [List.length_cons] at hlen'
        omega

/-- Witness for C4: order o2 of the first example has a single line. -/
theorem claim_C4_witness :
    ((basketOf exSpec1 "o2").length < 2
        ∧ pairsOf (sortedBasket (basketOf exSpec1 "o2")) = [])
      ∧ ("o1" ∈ multiItemOrders exSpec1 ↔
          "o1" ∈ orderIds exSpec1 ∧ 2 ≤ (basketOf exSpec1 "o1").length) :=
  ⟨⟨by decide, (claim_C4 exSpec1).2 "o2" (by decide)⟩,
   (claim_C4 exSpec1).1 "o1"⟩

/-- Claim C5. With non-negative amounts: a product with a positive-amount sale
in the most recent period gets streak at least 1, and a product with no sale
at all in the most recent period gets streak 0. -/
theorem claim_C5 (records : List SalesRecord) (m : String) (rest : List String)
    (p : String)
    (hnn : ∀ r ∈ records, 0 ≤ r.amount)
    (hp : p ∈ records.map fun r => r.product_id) :
    ((∃ r ∈ records, r.product_id = p ∧ r.period = m ∧ 0 < r.amount) →
        ∃ s, (p, s) ∈ computeStreaks records (m :: rest) ∧ 1 ≤ s)
      ∧ ((∀ r ∈ records, r.product_id = p → r.period ≠ m) →
        (p, 0) ∈ computeStreaks records (m :: rest)) := by
  have hpid : p ∈ productIds records := mem_productIds.mpr hp
  constructor
  · rintro ⟨r, hr, hrp, hrm, hpos⟩
    refine ⟨currentStreak records p (m :: rest),
      computeStreaks_mem_of_productId hpid, ?_⟩
    rw [currentStreak,
      if_pos (periodAmount_pos records p m hnn r hr hrp hrm hpos)]
    omega
  · intro hno
    have hneg : ¬(0 < periodAmount records p m) := by
      rw [periodAmount_eq_zero records p m hno]
      exact lt_irrefl 0
    have hz : currentStreak records p (m :: rest) = 0 := by
      rw [currentStreak, if_neg hneg]
    have hmem := @computeStreaks_mem_of_productId records (m :: rest) p hpid
    rw [hz] at hmem
    exact hmem

/-- Witness for C5: in the first example, A sells in feb (streak ≥ 1) while
B has no feb sale (streak 0). -/
theorem claim_C5_witness :
    (∃ s, ("A", s) ∈ computeStreaks exSpec1 ["feb", "jan"] ∧ 1 ≤ s)
      ∧ ("B", 0) ∈ computeStreaks exSpec1 ["feb", "jan"] :=
  ⟨(claim_C5 exSpec1 "feb" ["jan"] "A" (by decide) (by decide)).1 (by decide),
   (claim_C5 exSpec1 "feb" ["jan"] "B" (by decide) (by decide)).2 (by decide)⟩

/-- Claim C6. Every streak is bounded by the number of periods, and a product
whose aggregated amount is positive in every period reaches that bound. -/
theorem claim_C6 (records : List SalesRecord) (periods : List String)
    (p : String) (s : Nat)
    (hmem : (p, s) ∈ computeStreaks records periods) :
    s ≤ periods.length
      ∧ ((∀ m ∈ periods, 0 < periodAmount records p m) → s = periods.length) := by
  have hs := (mem_computeStreaks hmem).2
  constructor
  · rw [hs, currentStreak_eq_length_takeWhile]
    exact (List.takeWhile_sublist _).length_le
  · intro hall
    rw [hs, currentStreak_eq_length_takeWhile,
      List.takeWhile_eq_self_iff.mpr fun m hm => decide_eq_true (hall m hm)]

/-- Witness for C6: product A of the first example sells in both periods. -/
theorem claim_C6_witness :
    2 ≤ (["feb", "jan"] : List String).length
      ∧ 2 = (["feb", "jan"] : List String).length :=
  ⟨(claim_C6 exSpec1 ["feb", "jan"] "A" 2 (by decide)).1,
   (claim_C6 exSpec1 ["feb", "jan"] "A" 2 (by decide)).2 (by decide)⟩

/-- Claim C7. Both computations are pure functions of their input: identical
inputs give identical outputs, order of returned pairs included. -/
theorem claim_C7 (records1 records2 : List SalesRecord)
    (periods : List String) (topK : Nat) (h : records1 = records2) :
    computeStreaks records1 periods = computeStreaks records2 periods
      ∧ countPairs records1 topK = countPairs records2 topK := by
  subst h
  exact ⟨rfl, rfl⟩

/-- Witness for C7. -/
theorem claim_C7_witness :
    computeStreaks exSpec1 ["feb", "jan"] = computeStreaks exSpec1 ["feb", "jan"]
      ∧ countPairs exSpec1 10 = countPairs exSpec1 10 :=
  claim_C7 exSpec1 exSpec1 ["feb", "jan"] 10 rfl

/-- Claim C8. Empty input: the streak table is an empty mapping and the pair
list is an empty sequence (both computations are total, so nothing can be
raised). -/
theorem claim_C8 (periods : List String) (topK : Nat) :
    computeStreaks [] periods = [] ∧ countPairs [] topK = [] := by
  constructor
  · rfl
  · unfold countPairs mostCommon pairCounts allPairs multiItemOrders orderIds
      keysInOrder
    simp

/-- Claim C9. Every pair the Counter ever counts — hence every returned pair —
is nondecreasing under string order, because each basket is sorted before
its 2-combinations are enumerated; equality is possible (a duplicated line
item yields a self-pair). -/
theorem claim_C9 :
    (∀ (records : List SalesRecord) (topK : Nat) (a b : String) (c : Nat),
        ((a, b), c) ∈ countPairs records topK → a ≤ b)
      ∧ ∃ (records : List SalesRecord) (topK : Nat) (a : String) (c : Nat),
          ((a, a), c) ∈ countPairs records topK := by
  constructor
  · intro records topK a b c hmem
    exact mem_allPairs_le (mem_pairCounts (mem_countPairs_mem_pairCounts hmem)).1
  · exact ⟨exSelf, 20, "A", 1, by decide⟩

/-- Witness for C9. -/
theorem claim_C9_witness : ("X" : String) ≤ "Y" :=
  claim_C9.1 exSpec2 10 "X" "Y" 2 (by decide)

/-- Claim C10. The total of all Counter values equals the sum over retained
baskets of n·(n−1)/2 where n is the basket's number of line-item rows. -/
theorem claim_C10 (records : List SalesRecord) :
    ((pairCounts records).map Prod.snd).sum
      = ((multiItemOrders records).map fun o =>
          (basketOf records o).length * ((basketOf records o).length - 1) / 2).sum := by
  unfold pairCounts
  rw [List.map_map]
  have h1 : ((keysInOrder (allPairs records)).map
      fun p => listCount p (allPairs records)).sum = (allPairs records).length :=
    sum_counts_of_nodup _ (nodup_keysInOrder _) _ fun x hx => mem_keysInOrder.mpr hx
  have hcomp : (Prod.snd ∘ fun p : String × String =>
      (p, listCount p (allPairs records)))
        = fun p => listCount p (allPairs records) := rfl
  rw [hcomp, h1]
  unfold allPairs
  rw [length_flatMap_sum]
  congr 1
  apply List.map_congr_left
  intro o _
  rw [length_pairsOf, (sortedBasket_perm _).length_eq, Nat.choose_two_right]

end SalesViz
